import Mathlib

/-!
A verification development for the NDK test-runner orchestration core
(`ndk/run_tests.py`, `ndk/graph.py`).  Pure functions from the source are
embedded as Lean definitions; stateful components (the sharding work queue)
are embedded as explicit state machines.  Components that live outside the
provided sources (`ndk.test.result`, `ndk.workqueue`, `ndk.test.devices`)
are modelled from the specification and marked as such.
-/

namespace Ndk

/-! ## String containment (Python `in` on strings) -/

/-- `pat` occurs at the front of `l`. -/
def hasPrefixL : List Char → List Char → Bool
  | [], _ => true
  | _ :: _, [] => false
  | p :: ps, c :: cs => p == c && hasPrefixL ps cs

/-- `pat` occurs somewhere inside `l` (Python `pat in s`). -/
def containsSub (pat : List Char) : List Char → Bool
  | [] => hasPrefixL pat []
  | c :: cs => hasPrefixL pat (c :: cs) || containsSub pat cs

/-- Python `pat in s` for strings. -/
def strContains (s pat : String) : Bool :=
  containsSub pat.data s.data

/-! ## Devices and build configurations

Modelled from the spec: `ndk.test.devices` and `ndk.test.spec` are not in
the sources.  §3: `BuildConfiguration` is {abi, api-level};
`Device` is {name, serial, api-version, supported-abis} with capability
predicate `can_run(config)` true iff the device's ABI set and API level
satisfy the configuration's requirements. -/

structure BuildConfiguration where
  abi : String
  apiLevel : Nat
deriving DecidableEq, Repr, Inhabited

structure Device where
  name : String
  serial : String
  version : Nat
  abis : List String
deriving DecidableEq, Repr, Inhabited

/-- Modelled from the spec: the device capability predicate `can_run` —
the device supports the configuration's ABI and its API level is at least
the configuration's. -/
def Device.can_run_build_config (d : Device) (c : BuildConfiguration) : Bool :=
  (c.abi ∈ d.abis) && (c.apiLevel ≤ d.version)

/-- Modelled from the spec: a `DeviceGroup` is a non-empty ordered sequence
of interchangeable devices (§3). -/
structure DeviceGroup where
  devices : List Device
deriving DecidableEq, Repr, Inhabited

/-! ## Test results

Modelled from the spec: `ndk.test.result` is not in the sources.  §3:
Result is a tagged variant over {Success, Failure(message),
Skipped(reason), ExpectedFailure(reason, bug-id),
UnexpectedSuccess(reason, bug-id)}; each result knows its test.  A result
is failed iff it is a Failure or an UnexpectedSuccess (Report.successful
is true iff no contained result is Failure or UnexpectedSuccess). -/

inductive TestResult where
  | success (test : String)
  | failure (test : String) (message : String)
  | skipped (test : String) (reason : String)
  | expectedFailure (test : String) (config : String) (bug : String)
  | unexpectedSuccess (test : String) (config : String) (bug : String)
deriving DecidableEq, Repr

/-- The name of the test a result belongs to (`result.test.name`). -/
def TestResult.testName : TestResult → String
  | .success t => t
  | .failure t _ => t
  | .skipped t _ => t
  | .expectedFailure t _ _ => t
  | .unexpectedSuccess t _ _ => t

/-- Modelled from the spec: only `Failure` carries a `message` attribute
(§3 gives `Failure(message)`; the other variants carry a `reason` or
nothing).  Accessing `message` on the others is an attribute error,
modelled as `none`. -/
def TestResult.message : TestResult → Option String
  | .failure _ m => some m
  | _ => none

/-- Modelled from the spec: a result is failed iff it is a `Failure` or an
`UnexpectedSuccess`. -/
def TestResult.failed : TestResult → Bool
  | .failure _ _ => true
  | .unexpectedSuccess _ _ _ => true
  | _ => false

/-- Modelled from the spec: a result is passed iff it is a `Success`, a
`Skipped` or an `ExpectedFailure`. -/
def TestResult.passed : TestResult → Bool
  | .success _ => true
  | .skipped _ _ => true
  | .expectedFailure _ _ _ => true
  | _ => false

/-! ## Test cases and test runs (`ndk/run_tests.py`)

A `TestCase` exposes `check_unsupported(device)`, `check_broken(device)`
and `run(device)`; the embedding keeps these as function-valued fields,
since the two concrete variants only differ in how they look the answers
up in test configuration files. `run` returns the adb result tuple
`(status, out, err)` from `shell_nocheck_wrap_errors`. -/

structure TestCase where
  name : String
  check_unsupported : Device → Option String
  check_broken : Device → Option String × Option String
  runCase : Device → Nat × String × String

/-- `TestRun`: a test case mapped to the device group it will run on. -/
structure TestRun where
  test_case : TestCase
  device_group : DeviceGroup

/-- `str(device)` used when composing a failure message; the device's
printable form. -/
def deviceStr (d : Device) : String := d.name

/-- `TestRun.fixup_xfail` (run_tests.py:225-233): if `check_broken`
reports a broken declaration, a failed result becomes `ExpectedFailure`
and a passed result becomes `UnexpectedSuccess`; a result that is neither
raises `ValueError`, modelled as `none`. -/
def TestRun.fixup_xfail (tr : TestRun) (result : TestResult) (device : Device) :
    Option TestResult :=
  match tr.test_case.check_broken device with
  | (some config, bug) =>
    if result.failed then
      some (.expectedFailure tr.test_case.name config (bug.getD ""))
    else if result.passed then
      some (.unexpectedSuccess tr.test_case.name config (bug.getD ""))
    else
      none
  | (none, _) => some result

/-- `TestRun.make_result` (run_tests.py:216-223): exit status 0 is a
`Success`, anything else a `Failure` whose message is the device string
joined with the output; then `fixup_xfail` is applied. -/
def TestRun.make_result (tr : TestRun) (adb : Nat × String × String)
    (device : Device) : Option TestResult :=
  let (status, out, _) := adb
  let result : TestResult :=
    if status = 0 then
      .success tr.test_case.name
    else
      .failure tr.test_case.name (deviceStr device ++ "\n" ++ out)
  tr.fixup_xfail result device

/-- `TestRun.run` (run_tests.py:235-240): a non-`None` `check_unsupported`
answer short-circuits to `Skipped` without executing the test case;
otherwise the raw run is classified by `make_result`. -/
def TestRun.run (tr : TestRun) (device : Device) : Option TestResult :=
  match tr.test_case.check_unsupported device with
  | some config => some (.skipped tr.test_case.name ("test unsupported for " ++ config))
  | none => tr.make_result (tr.test_case.runCase device) device

/-! ## Flake detection (`flake_filter`, run_tests.py:526-541) -/

/-- The adb transport output-loss marker checked by `flake_filter`. -/
def flakeMarker : String := "Could not find exit status in shell output."

/-- `flake_filter` (run_tests.py:526-541).  `UnexpectedSuccess` results are
rejected up front; otherwise the result's `message` is inspected (an
attribute error — modelled `Except.error` — for any variant other than
`Failure`, which is the only variant carrying a `message`), then the test
name is checked for the timing-sensitive libc++ thread test families. -/
def flake_filter (result : TestResult) : Except Unit Bool :=
  match result with
  | .unexpectedSuccess _ _ _ => .ok false
  | _ =>
    match result.message with
    | none => .error ()
    | some msg =>
      if strContains msg flakeMarker then
        .ok true
      else
        let name := result.testName
        if strContains name "libc++.libcxx/thread" ||
            strContains name "libc++.std/thread" then
          .ok true
        else
          .ok false

/-! ## The sharding work queue (`ShardingWorkQueue`, run_tests.py:651-689)

`ndk.workqueue` is not in the sources; modelled from the spec (§4.2):
a `WorkQueue(W, task_queue, result_queue, worker_data)` is a pool of `W`
persistent workers, each bound to the fixed `worker_data` for its
lifetime, draining the given task queue and publishing to the given
result queue; a worker-level unrecoverable error is delivered through the
result queue as a distinguished `TaskError` value.  Tasks and errors are
identified by natural numbers. -/

/-- A value travelling on the shared result queue: either an ordinary
result or a distinguished worker-level `TaskError`. -/
inductive RVal where
  | ok (r : Nat)
  | taskError (e : Nat)
deriving DecidableEq, Repr

/-- One member `WorkQueue` of a `ShardingWorkQueue`, as constructed at
run_tests.py:661-664: a pool of `procs` workers bound to `worker_data`
(a one-element list holding the device), draining the task queue
identified by `taskQueueId`. -/
structure WorkQueueRec where
  procs : Nat
  taskQueueId : Nat
  worker_data : List Device
deriving DecidableEq, Repr

/-- The state of a `ShardingWorkQueue`: one task queue per device group
(identified by the group's index in the construction list), the single
shared result queue, the member work queues and the outstanding-task
counter (a Python `int`). -/
structure SWQ where
  taskQueues : Nat → List Nat
  result_queue : List RVal
  work_queues : List WorkQueueRec
  num_tasks : Int

/-- The `for group in device_groups: for device in group.devices` loop of
`ShardingWorkQueue.__init__`, task queues identified by the group's
position. -/
def mkWorkQueues (procs_per_device : Nat) : Nat → List DeviceGroup → List WorkQueueRec
  | _, [] => []
  | i, group :: rest =>
    (group.devices.map fun device =>
      { procs := procs_per_device, taskQueueId := i, worker_data := [device] }) ++
    mkWorkQueues procs_per_device (i + 1) rest

/-- `ShardingWorkQueue.__init__` (run_tests.py:652-664): a fresh task
queue per group, and for every device of every group one `WorkQueue` of
`procs_per_device` workers whose `worker_data` is `[device]` and whose
task queue is the device's group's queue. -/
def SWQ.init (device_groups : List DeviceGroup) (procs_per_device : Nat) : SWQ where
  taskQueues := fun _ => []
  result_queue := []
  work_queues := mkWorkQueues procs_per_device 0 device_groups
  num_tasks := 0

/-- The number of member work queues whose workers are bound to device
`d`. -/
def queuesBoundTo (s : SWQ) (d : Device) : Nat :=
  s.work_queues.countP fun wq => wq.worker_data = [d]

/-- The number of workers bound to device `d` (each member work queue is
a pool of `procs` workers on the same `worker_data`). -/
def workersBoundTo (s : SWQ) (d : Device) : Nat :=
  ((s.work_queues.filter fun wq => wq.worker_data = [d]).map (·.procs)).sum

/-- `ShardingWorkQueue.add_task` (run_tests.py:666-669): the task is put
on the group's dedicated task queue and the outstanding-task counter is
incremented. -/
def SWQ.add_task (s : SWQ) (group : Nat) (task : Nat) : SWQ :=
  { s with
    taskQueues := fun j => if j = group then s.taskQueues group ++ [task] else s.taskQueues j
    num_tasks := s.num_tasks + 1 }

/-- A worker publishing a value on the shared result queue (spec-modelled
behaviour of `ndk.workqueue` workers). -/
def SWQ.publish (s : SWQ) (v : RVal) : SWQ :=
  { s with result_queue := s.result_queue ++ [v] }

/-- `ShardingWorkQueue.get_result` (run_tests.py:671-677): blocks until a
value is available (modelled: `none` when the queue is empty); a
`TaskError` value is raised (`Except.error`) before the counter is
touched; an ordinary value decrements `num_tasks` and is returned. -/
def SWQ.get_result (s : SWQ) : Option (Except Nat Nat × SWQ) :=
  match s.result_queue with
  | [] => none
  | v :: rest =>
    match v with
    | .taskError e => some (.error e, { s with result_queue := rest })
    | .ok r => some (.ok r, { s with result_queue := rest, num_tasks := s.num_tasks - 1 })

/-- `ShardingWorkQueue.finished` (run_tests.py:687-689). -/
def SWQ.finished (s : SWQ) : Bool := s.num_tasks = 0

/-! ### Event traces over a sharding work queue -/

/-- An externally visible event: a task submission for a group, a worker
completing with a value, or the driver taking one result (a no-op when
the result queue is empty, since `get_result` blocks). -/
inductive QEv where
  | add (group : Nat) (task : Nat)
  | complete (v : RVal)
  | get
deriving DecidableEq, Repr

/-- One event step. -/
def SWQ.step (s : SWQ) : QEv → SWQ
  | .add g t => s.add_task g t
  | .complete v => s.publish v
  | .get =>
    match s.get_result with
    | none => s
    | some (_, s') => s'

/-- Running a trace of events from a state. -/
def SWQ.run : SWQ → List QEv → SWQ
  | s, [] => s
  | s, e :: es => (s.step e).run es

/-- The number of `add` events in a trace. -/
def addCount (evs : List QEv) : Nat :=
  evs.countP fun e => match e with | .add _ _ => true | _ => false

/-- The number of ordinary (non-error) completions in a trace. -/
def okCompleteCount (evs : List QEv) : Nat :=
  evs.countP fun e => match e with | .complete (.ok _) => true | _ => false

/-- The number of `TaskError` completions in a trace. -/
def errCompleteCount (evs : List QEv) : Nat :=
  evs.countP fun e => match e with | .complete (.taskError _) => true | _ => false

/-- The number of ordinary results in a result queue. -/
def okQueueCount (q : List RVal) : Nat :=
  q.countP fun v => match v with | .ok _ => true | _ => false

/-- The number of `get` events of a trace, run from `s`, that return an
ordinary result (and hence decrement the counter). -/
def SWQ.okGetCount : SWQ → List QEv → Nat
  | _, [] => 0
  | s, e :: es =>
    let n := (s.step e).okGetCount es
    match e with
    | .get =>
      match s.result_queue with
      | RVal.ok _ :: _ => n + 1
      | _ => n
    | _ => n

/-! ## Config/device-group matching (run_tests.py:469-492) -/

/-- `verify_have_all_requested_devices` (run_tests.py:469-475): false iff
the fleet records at least one missing configuration. -/
def verify_have_all_requested_devices (missing_configs : List String) : Bool :=
  !(missing_configs.length ≠ 0)

/-- Modelled from the spec: the fleet owns the unique device groups and
the requested-but-missing configurations (`ndk.test.devices` is not in the
sources). -/
structure Fleet where
  unique_device_groups : List DeviceGroup
  missing : List String

/-- `match_configs_to_device_groups` (run_tests.py:482-492): every config
is a key; a group is appended for a config when the group's first device
(all devices in a group are identical) can run the config. -/
def match_configs_to_device_groups (fleet : Fleet) (configs : List BuildConfiguration) :
    List (BuildConfiguration × List DeviceGroup) :=
  configs.map fun config =>
    (config,
      fleet.unique_device_groups.filter fun group =>
        (group.devices.headI).can_run_build_config config)

/-! ## The driver tail of `run_tests` (run_tests.py:799-864)

The portion of `run_tests` from device discovery onward, embedded as a
pure function that records which tasks are submitted to the work queues.
Device discovery, pushing and shell execution themselves are external
effects; what the embedding keeps is the control flow and the set of
submitted tasks. -/

/-- A task submitted to a work queue by the driver. -/
inductive DriverTask where
  | cleanDir (d : Device)
  | push (config : BuildConfiguration) (d : Device)
  | runTest (config : BuildConfiguration) (testName : String) (group : DeviceGroup)
deriving DecidableEq, Repr

/-- The driver's outcome: `success = some false` is `results.failed(...)`. -/
structure DriverResults where
  success : Option Bool
  failure_message : Option String
deriving DecidableEq, Repr

/-- `clear_test_directories` (run_tests.py:367-373): one clean task per
device of every unique device group. -/
def clear_test_directories_tasks (fleet : Fleet) : List DriverTask :=
  fleet.unique_device_groups.flatMap fun group =>
    group.devices.map DriverTask.cleanDir

/-- `push_tests_to_devices` (run_tests.py:410-421): one push task per
(config, group, device) triple of the matching. -/
def push_tests_to_devices_tasks
    (groups_for_config : List (BuildConfiguration × List DeviceGroup)) : List DriverTask :=
  groups_for_config.flatMap fun cg =>
    cg.2.flatMap fun group =>
      group.devices.map (DriverTask.push cg.1)

/-- `pair_test_runs` (run_tests.py:495-504): a test run per (test case,
eligible group) pair, skipping configs with no test cases. -/
def pair_test_runs_tasks (test_groups : List (BuildConfiguration × List String))
    (groups_for_config : List (BuildConfiguration × List DeviceGroup)) : List DriverTask :=
  test_groups.flatMap fun ct =>
    if ct.2.isEmpty then []
    else
      (((groups_for_config.filter (·.1 = ct.1)).flatMap (·.2)).flatMap fun group =>
        ct.2.map fun tc => DriverTask.runTest ct.1 tc group)

/-- The tail of `run_tests` (run_tests.py:799-864) after test discovery:
device discovery, the `--require-all-devices` gate, config matching, the
optional device clean, the push phase and the run phase, returning the
driver outcome together with every task submitted to a work queue. -/
def run_tests_tail (require_all_devices clean_device : Bool) (fleet : Fleet)
    (test_groups : List (BuildConfiguration × List String)) :
    DriverResults × List DriverTask :=
  let have_all_devices := verify_have_all_requested_devices fleet.missing
  if require_all_devices && !have_all_devices then
    ({ success := some false,
       failure_message := some "Some requested devices were not available." }, [])
  else
    let groups_for_config := match_configs_to_device_groups fleet (test_groups.map (·.1))
    let cleanTasks := if clean_device then clear_test_directories_tasks fleet else []
    let pushTasks := push_tests_to_devices_tasks groups_for_config
    let runTasks := pair_test_runs_tasks test_groups groups_for_config
    ({ success := none, failure_message := none },
      cleanTasks ++ pushTasks ++ runTasks)

/-! ## Directed graphs and cycle detection (`ndk/graph.py`)

Nodes are identified by their (orderable) names, here natural numbers.
`Node.__init__` sorts the out-edge list; `Graph.__init__` sorts the node
list; both are reproduced by `Graph.ofNodes`.  The recursive depth-first
search `find_cycle_from_node` mutates a `visited` set and a live `path`
stack; the embedding threads `visited` through and rebuilds `path`
immutably (the Python code always pops what it pushed before returning).
Python's recursion is bounded by the number of distinct nodes, reproduced
here with a fuel argument; `Graph.find_cycle` supplies `nodes.length + 1`
fuel, which is proved sufficient for edge-closed graphs. -/

structure Graph where
  nodes : List Nat
  outs : Nat → List Nat

/-- `Graph.__init__` plus `Node.__init__`: both the node list and every
out-edge list are sorted. -/
def Graph.ofNodes (ns : List Nat) (outEdges : Nat → List Nat) : Graph where
  nodes := List.mergeSort ns (· ≤ ·)
  outs := fun n => List.mergeSort (outEdges n) (· ≤ ·)

/-- The edge relation of a graph. -/
def Graph.Edge (g : Graph) (a b : Nat) : Prop := b ∈ g.outs a

/-- The graph has a (non-empty) directed cycle through one of its nodes. -/
def Graph.Cyclic (g : Graph) : Prop :=
  ∃ a ∈ g.nodes, Relation.TransGen g.Edge a a

mutual

/-- `Graph.find_cycle_from_node` (graph.py:62-102).  The node is pushed on
the path; a repeat within the previous path yields the sub-path from the
first occurrence of the node, closed by the node itself; an
already-visited node short-circuits; otherwise the node is marked visited
and its out-edges are searched in order.  `none` is fuel exhaustion. -/
def visitNode (g : Graph) (fuel node : Nat) (visited path : List Nat) :
    Option (Option (List Nat) × List Nat) :=
  match fuel with
  | 0 => none
  | fuel' + 1 =>
    if node ∈ path then
      some (some (path.dropWhile (· != node) ++ [node]), visited)
    else if node ∈ visited then
      some (none, visited)
    else
      visitList g fuel' (g.outs node) (node :: visited) (path ++ [node])
termination_by (fuel, 0)

/-- The `for in_node in node.outs` loop of `find_cycle_from_node`,
threading the mutated visited set and returning the first cycle found. -/
def visitList (g : Graph) (fuel : Nat) (outs visited path : List Nat) :
    Option (Option (List Nat) × List Nat) :=
  match outs with
  | [] => some (none, visited)
  | o :: os =>
    match visitNode g fuel o visited path with
    | none => none
    | some (some cycle, v) => some (some cycle, v)
    | some (none, v) => visitList g fuel os v path
termination_by (fuel, outs.length + 1)

end

/-- The `for node in self.nodes` loop of `find_cycle` (graph.py:53-59),
threading the shared visited set, each node searched with a fresh empty
path. -/
def findCycleFrom (g : Graph) (fuel : Nat) : List Nat → List Nat → Option (Option (List Nat))
  | [], _ => some none
  | n :: ns, visited =>
    match visitNode g fuel n visited [] with
    | none => none
    | some (some cycle, _) => some (some cycle)
    | some (none, v) => findCycleFrom g fuel ns v

/-- `Graph.find_cycle` (graph.py:48-59): depth-first search from every
node in sorted order with a shared visited set; `nodes.length + 1` fuel
is sufficient for edge-closed graphs (proved below). -/
def Graph.find_cycle (g : Graph) : Option (List Nat) :=
  match findCycleFrom g (g.nodes.length + 1) g.nodes [] with
  | some r => r
  | none => none

/-- The shape of a cycle as reported by `find_cycle`: a simple closed
edge-path that begins and ends with the repeated node (the sub-path of
the search path from the node's first occurrence to its closing repeat),
the repeat occurring nowhere in between. -/
def CycleShape (g : Graph) (c : List Nat) : Prop :=
  ∃ a mid, c = a :: (mid ++ [a]) ∧ a ∉ mid ∧ mid.Nodup ∧
    List.Chain g.Edge a (mid ++ [a]) ∧ a ∈ g.nodes

/-- The number of graph nodes (counted once each) not yet visited; the
search's termination measure. -/
def ucount (g : Graph) (visited : List Nat) : Nat :=
  (g.nodes.dedup.filter (fun x => x ∉ visited)).length

/-- The closure invariant of the depth-first search: every visited node
off the current path has all its successors visited and off the path. -/
def ClosedOff (g : Graph) (visited path : List Nat) : Prop :=
  ∀ x ∈ visited, x ∉ path → ∀ y ∈ g.outs x, y ∈ visited ∧ y ∉ path

/-- The acyclicity invariant: no visited node off the current path lies
on a directed cycle. -/
def NoCycOff (g : Graph) (visited path : List Nat) : Prop :=
  ∀ x ∈ visited, x ∉ path → ¬ Relation.TransGen g.Edge x x

/-! ## Concrete inputs used by the witnesses -/

/-- A sample device. -/
def dSample : Device := { name := "pixel", serial := "0123", version := 24, abis := ["arm64-v8a"] }

/-- A second sample device. -/
def dSample2 : Device := { name := "nexus", serial := "4567", version := 30, abis := ["arm64-v8a"] }

/-- A sample device group. -/
def gSample : DeviceGroup := { devices := [dSample] }

/-- A second sample device group. -/
def gSample2 : DeviceGroup := { devices := [dSample2] }

/-- A sample test case: supported everywhere, not declared broken, and
exiting with status 0. -/
def tcSample : TestCase where
  name := "suite.foo"
  check_unsupported := fun _ => none
  check_broken := fun _ => (none, none)
  runCase := fun _ => (0, "", "")

/-- A sample fleet of one group and a missing configuration. -/
def fleetSample : Fleet where
  unique_device_groups := [gSample]
  missing := ["x86-30"]

/-- A sample build configuration runnable on `dSample`. -/
def cfgSample : BuildConfiguration := { abi := "arm64-v8a", apiLevel := 21 }

/-! # Theorems -/

/-- **C1.** For every test run and device: a non-`None` `check_unsupported`
answer yields `Skipped` and the test case is never executed (the result is
the same whatever `run` would have returned); otherwise, with a broken
declaration, exit status 0 yields `UnexpectedSuccess` and a non-zero exit
status yields `ExpectedFailure`; with no broken declaration, exit status 0
yields `Success` and any other status yields `Failure`. -/
theorem testRun_result_classification (tc : TestCase) (grp : DeviceGroup) (d : Device) :
    (∀ reason, tc.check_unsupported d = some reason →
      ∀ raw : Device → Nat × String × String,
        TestRun.run ⟨{ tc with runCase := raw }, grp⟩ d =
          some (.skipped tc.name ("test unsupported for " ++ reason))) ∧
    (tc.check_unsupported d = none →
      ∀ status out err, tc.runCase d = (status, out, err) →
        (∀ config bug, tc.check_broken d = (some config, bug) →
          (status = 0 →
            TestRun.run ⟨tc, grp⟩ d =
              some (.unexpectedSuccess tc.name config (bug.getD ""))) ∧
          (status ≠ 0 →
            TestRun.run ⟨tc, grp⟩ d =
              some (.expectedFailure tc.name config (bug.getD "")))) ∧
        ((tc.check_broken d).1 = none →
          (status = 0 → TestRun.run ⟨tc, grp⟩ d = some (.success tc.name)) ∧
          (status ≠ 0 →
            TestRun.run ⟨tc, grp⟩ d =
              some (.failure tc.name (deviceStr d ++ "\n" ++ out))))) := by
  constructor
  · intro reason hr raw
    simp only [TestRun.run]
    have : ({ tc with runCase := raw } : TestCase).check_unsupported d = some reason := hr
    rw [this]
  · intro hu status out err hraw
    have hrun : TestRun.run ⟨tc, grp⟩ d =
        TestRun.make_result ⟨tc, grp⟩ (tc.runCase d) d := by
      simp only [TestRun.run, hu]
    constructor
    · intro config bug hb
      constructor
      · intro h0
        rw [hrun, hraw]
        simp only [TestRun.make_result, h0, if_pos rfl]
        rw [TestRun.fixup_xfail, hb]
        rfl
      · intro h0
        rw [hrun, hraw]
        simp only [TestRun.make_result, if_neg h0]
        rw [TestRun.fixup_xfail, hb]
        rfl
    · intro hb
      have hb' : tc.check_broken d = (none, (tc.check_broken d).2) := by
        cases h : tc.check_broken d with
        | mk a b => rw [h] at hb; simp at hb; rw [hb]
      constructor
      · intro h0
        rw [hrun, hraw]
        simp only [TestRun.make_result, h0, if_pos rfl]
        rw [TestRun.fixup_xfail, hb']
        simp
      · intro h0
        rw [hrun, hraw]
        simp only [TestRun.make_result, if_neg h0]
        rw [TestRun.fixup_xfail, hb']

/-- Witness for C1: the sample test case, not unsupported and not broken,
exiting 0, is classified `Success`. -/
theorem testRun_result_classification_witness :
    TestRun.run ⟨tcSample, gSample⟩ dSample = some (.success "suite.foo") := by
  have h := testRun_result_classification tcSample gSample dSample
  exact ((h.2 rfl 0 "" "" rfl).2 rfl).1 rfl

/-- **C2.** `flake_filter` answers `true` exactly for `Failure` results
whose message contains the transport output-loss marker or whose test
name contains one of the libc++ thread test families; no other result
kind is ever a retry candidate. -/
theorem flake_filter_characterization (r : TestResult) :
    flake_filter r = .ok true ↔
      ∃ t m, r = .failure t m ∧
        (strContains m flakeMarker = true ∨
          strContains t "libc++.libcxx/thread" = true ∨
          strContains t "libc++.std/thread" = true) := by
  cases r with
  | success t => simp [flake_filter, TestResult.message]
  | failure t m =>
    simp only [flake_filter, TestResult.message, TestResult.testName]
    constructor
    · intro h
      refine ⟨t, m, rfl, ?_⟩
      by_cases h1 : strContains m flakeMarker
      · exact Or.inl h1
      · rw [if_neg (by simp [h1])] at h
        by_cases h2 : (strContains t "libc++.libcxx/thread" ||
            strContains t "libc++.std/thread") = true
        · rcases Bool.or_eq_true_iff.mp h2 with h3 | h3
          · exact Or.inr (Or.inl h3)
          · exact Or.inr (Or.inr h3)
        · rw [if_neg (by simp_all)] at h
          cases h
    · rintro ⟨t', m', heq, hor⟩
      injection heq with ht hm
      subst ht; subst hm
      rcases hor with h1 | h1 | h1
      · rw [if_pos h1]
      · by_cases hm1 : strContains m flakeMarker
        · rw [if_pos hm1]
        · rw [if_neg (by simp [hm1]), if_pos (by simp [h1])]
      · by_cases hm1 : strContains m flakeMarker
        · rw [if_pos hm1]
        · rw [if_neg (by simp [hm1]), if_pos (by simp [h1])]
  | skipped t reason => simp [flake_filter, TestResult.message]
  | expectedFailure t c b => simp [flake_filter, TestResult.message]
  | unexpectedSuccess t c b => simp [flake_filter]

/-! ### Work-queue accounting lemmas -/

/-- Along any event trace, the outstanding-task counter moves by the adds
minus the gets that returned an ordinary result. -/
theorem run_num_tasks_eq (evs : List QEv) :
    ∀ s : SWQ, (s.run evs).num_tasks =
      s.num_tasks + (addCount evs : Int) - (s.okGetCount evs : Int) := by
  induction evs with
  | nil => intro s; simp [SWQ.run, addCount, SWQ.okGetCount]
  | cons e es ih =>
    intro s
    rw [SWQ.run, ih (s.step e)]
    cases e with
    | add g t =>
      simp only [SWQ.step, SWQ.add_task, addCount, SWQ.okGetCount, List.countP_cons]
      simp
      omega
    | complete v =>
      simp only [SWQ.step, SWQ.publish, addCount, SWQ.okGetCount, List.countP_cons]
      simp
    | get =>
      cases hq : s.result_queue with
      | nil =>
        simp only [SWQ.step, SWQ.get_result, hq, addCount, SWQ.okGetCount,
          List.countP_cons]
        simp
      | cons v rest =>
        cases v with
        | ok r =>
          simp only [SWQ.step, SWQ.get_result, hq, addCount, SWQ.okGetCount,
            List.countP_cons]
          simp
          omega
        | taskError e =>
          simp only [SWQ.step, SWQ.get_result, hq, addCount, SWQ.okGetCount,
            List.countP_cons]
          simp

/-- Steps other than `add_task` do not touch the task queues, and
`add_task` touches only the submitted group's queue: a task found in a
queue was submitted for that queue's group. -/
theorem run_taskQueues_mem (t j : Nat) (evs : List QEv) :
    ∀ s : SWQ, t ∈ (s.run evs).taskQueues j →
      t ∈ s.taskQueues j ∨ QEv.add j t ∈ evs := by
  induction evs with
  | nil => intro s h; exact Or.inl h
  | cons e es ih =>
    intro s h
    rw [SWQ.run] at h
    rcases ih (s.step e) h with hmem | hmem
    · cases e with
      | add g t' =>
        simp only [SWQ.step, SWQ.add_task] at hmem
        by_cases hj : j = g
        · subst hj
          rw [if_pos rfl] at hmem
          rcases List.mem_append.mp hmem with h1 | h1
          · exact Or.inl h1
          · simp at h1
            subst h1
            exact Or.inr (List.mem_cons_self _ _)
        · rw [if_neg hj] at hmem
          exact Or.inl hmem
      | complete v => exact Or.inl hmem
      | get =>
        simp only [SWQ.step] at hmem
        cases hq : s.result_queue with
        | nil => rw [SWQ.get_result, hq] at hmem; exact Or.inl hmem
        | cons v rest =>
          cases v <;> rw [SWQ.get_result, hq] at hmem <;> exact Or.inl hmem
    · exact Or.inr (List.mem_cons_of_mem _ hmem)

/-- Event steps never change the member work queues. -/
theorem run_work_queues (evs : List QEv) :
    ∀ s : SWQ, (s.run evs).work_queues = s.work_queues := by
  induction evs with
  | nil => intro s; rfl
  | cons e es ih =>
    intro s
    rw [SWQ.run, ih (s.step e)]
    cases e with
    | add g t => rfl
    | complete v => rfl
    | get =>
      simp only [SWQ.step]
      cases hq : s.result_queue with
      | nil => rw [SWQ.get_result, hq]
      | cons v rest => cases v <;> rw [SWQ.get_result, hq]

/-- The number of ordinary results ever taken off the result queue is
bounded by the ordinary results initially queued plus those published
during the trace. -/
theorem okGetCount_le (evs : List QEv) :
    ∀ s : SWQ, s.okGetCount evs ≤ okQueueCount s.result_queue + okCompleteCount evs := by
  induction evs with
  | nil => intro s; simp [SWQ.okGetCount, okCompleteCount]
  | cons e es ih =>
    intro s
    have h := ih (s.step e)
    cases e with
    | add g t =>
      have h1 : s.okGetCount (.add g t :: es) = (s.step (.add g t)).okGetCount es := rfl
      have h2 : (s.step (.add g t)).result_queue = s.result_queue := rfl
      rw [h2] at h
      rw [h1]
      have h3 : okCompleteCount (QEv.add g t :: es) = okCompleteCount es := by
        simp [okCompleteCount, List.countP_cons]
      omega
    | complete v =>
      have h1 : s.okGetCount (.complete v :: es) = (s.step (.complete v)).okGetCount es := rfl
      have h2 : (s.step (.complete v)).result_queue = s.result_queue ++ [v] := rfl
      rw [h2] at h
      rw [h1]
      cases v with
      | ok r =>
        have h3 : okCompleteCount (QEv.complete (.ok r) :: es) = okCompleteCount es + 1 := by
          simp [okCompleteCount, List.countP_cons]
        have h4 : okQueueCount (s.result_queue ++ [RVal.ok r]) =
            okQueueCount s.result_queue + 1 := by
          simp [okQueueCount, List.countP_append]
        omega
      | taskError e =>
        have h3 : okCompleteCount (QEv.complete (.taskError e) :: es) = okCompleteCount es := by
          simp [okCompleteCount, List.countP_cons]
        have h4 : okQueueCount (s.result_queue ++ [RVal.taskError e]) =
            okQueueCount s.result_queue := by
          simp [okQueueCount, List.countP_append]
        omega
    | get =>
      have h3 : okCompleteCount (QEv.get :: es) = okCompleteCount es := by
        simp [okCompleteCount, List.countP_cons]
      cases hq : s.result_queue with
      | nil =>
        have h1 : s.okGetCount (.get :: es) = (s.step .get).okGetCount es := by
          rw [SWQ.okGetCount, hq]
        have h2 : (s.step .get).result_queue = s.result_queue := by
          simp only [SWQ.step, SWQ.get_result, hq]
        rw [h2, hq] at h
        rw [h1]
        omega
      | cons v rest =>
        cases v with
        | ok r =>
          have h1 : s.okGetCount (.get :: es) = (s.step .get).okGetCount es + 1 := by
            rw [SWQ.okGetCount, hq]
          have h2 : (s.step .get).result_queue = rest := by
            simp only [SWQ.step, SWQ.get_result, hq]
          rw [h2] at h
          have h4 : okQueueCount (RVal.ok r :: rest) = okQueueCount rest + 1 := by
            simp [okQueueCount, List.countP_cons]
          rw [h1]
          omega
        | taskError e =>
          have h1 : s.okGetCount (.get :: es) = (s.step .get).okGetCount es := by
            rw [SWQ.okGetCount, hq]
          have h2 : (s.step .get).result_queue = rest := by
            simp only [SWQ.step, SWQ.get_result, hq]
          rw [h2] at h
          have h4 : okQueueCount (RVal.taskError e :: rest) = okQueueCount rest := by
            simp [okQueueCount, List.countP_cons]
          rw [h1]
          omega

/-! ### Work-queue structure lemmas -/

/-- Structure of the work queues built by `ShardingWorkQueue.__init__`:
every member queue drains the task queue of some group and is bound to a
single device of that very group. -/
theorem mem_mkWorkQueues {procs : Nat} {gs : List DeviceGroup} :
    ∀ {i : Nat} {wq : WorkQueueRec}, wq ∈ mkWorkQueues procs i gs →
      ∃ j, j < gs.length ∧ wq.procs = procs ∧ wq.taskQueueId = i + j ∧
        ∃ d, wq.worker_data = [d] ∧ d ∈ (gs.getD j default).devices := by
  induction gs with
  | nil => intro i wq h; simp [mkWorkQueues] at h
  | cons g rest ih =>
    intro i wq h
    rw [mkWorkQueues] at h
    rcases List.mem_append.mp h with h1 | h1
    · rcases List.mem_map.mp h1 with ⟨d, hd, rfl⟩
      exact ⟨0, by simp, rfl, by simp, d, rfl, by simpa using hd⟩
    · rcases ih h1 with ⟨j, hj, hp, hq, d, hw, hd⟩
      refine ⟨j + 1, by simpa using hj, hp, ?_, d, hw, by simpa using hd⟩
      rw [hq]; omega

/-- **C4.** Over any interleaving of submissions, worker completions and
result retrievals, the outstanding-task count of a sharding work queue
equals the number of `add_task` calls minus the number of results
returned by `get_result`, and `finished()` holds exactly when that count
is zero. -/
theorem swq_task_accounting (groups : List DeviceGroup) (procs : Nat) (evs : List QEv) :
    ((SWQ.init groups procs).run evs).num_tasks =
      (addCount evs : Int) - ((SWQ.init groups procs).okGetCount evs : Int) ∧
    (((SWQ.init groups procs).run evs).finished = true ↔
      (addCount evs : Int) - ((SWQ.init groups procs).okGetCount evs : Int) = 0) := by
  have h := run_num_tasks_eq evs (SWQ.init groups procs)
  have h0 : (SWQ.init groups procs).num_tasks = 0 := rfl
  rw [h0] at h
  refine ⟨by omega, ?_⟩
  simp only [SWQ.finished, decide_eq_true_eq]
  omega

/-- **C5.** A `TaskError` at the head of the result queue is raised by
`get_result` rather than returned; an ordinary value is returned
normally (and decrements the counter). -/
theorem get_result_error_handling (s : SWQ) :
    (∀ e rest, s.result_queue = RVal.taskError e :: rest →
      s.get_result = some (.error e, { s with result_queue := rest })) ∧
    (∀ r rest, s.result_queue = RVal.ok r :: rest →
      s.get_result = some (.ok r,
        { s with result_queue := rest, num_tasks := s.num_tasks - 1 })) := by
  constructor
  · intro e rest h
    rw [SWQ.get_result, h]
  · intro r rest h
    rw [SWQ.get_result, h]

/-- Witness for C5 at a concrete state with a `TaskError` queued. -/
theorem get_result_error_handling_witness :
    SWQ.get_result
        { taskQueues := fun _ => [], result_queue := [RVal.taskError 7],
          work_queues := [], num_tasks := 1 } =
      some (.error 7,
        { taskQueues := fun _ => [], result_queue := [],
          work_queues := [], num_tasks := 1 }) :=
  (get_result_error_handling _).1 7 [] rfl

/-- **C10.** `get_result` raises a `TaskError` before decrementing
`num_tasks`; hence, when some submitted task ends in a worker-level error
(and so never yields an ordinary result), the outstanding count stays
positive and `finished()` can never become true for the batch. -/
theorem task_error_blocks_finished (groups : List DeviceGroup) (procs : Nat)
    (evs : List QEv)
    (h1 : 1 ≤ errCompleteCount evs)
    (h2 : okCompleteCount evs + errCompleteCount evs ≤ addCount evs) :
    (∀ (s : SWQ) (e : Nat) (rest : List RVal),
      s.result_queue = RVal.taskError e :: rest →
      ∃ s', s.get_result = some (.error e, s') ∧ s'.num_tasks = s.num_tasks) ∧
    ((SWQ.init groups procs).run evs).finished = false := by
  constructor
  · intro s e rest h
    exact ⟨{ s with result_queue := rest }, by rw [SWQ.get_result, h], rfl⟩
  · have hn := run_num_tasks_eq evs (SWQ.init groups procs)
    have h0 : (SWQ.init groups procs).num_tasks = 0 := rfl
    rw [h0] at hn
    have hle := okGetCount_le evs (SWQ.init groups procs)
    have hq0 : okQueueCount (SWQ.init groups procs).result_queue = 0 := rfl
    rw [hq0] at hle
    simp only [SWQ.finished, decide_eq_false_iff_not]
    omega

/-- Witness for C10: one submitted task, completed with a `TaskError`;
the queue never reports finished. -/
theorem task_error_blocks_finished_witness :
    ((SWQ.init [] 4).run [QEv.add 0 0, QEv.complete (.taskError 5)]).finished = false :=
  (task_error_blocks_finished [] 4 [QEv.add 0 0, QEv.complete (.taskError 5)]
    (by decide) (by decide)).2

/-- **C3.** Tasks submitted for a group land only on that group's
dedicated task queue; every member work queue draining a group's queue is
bound (via `worker_data`) to a device of that same group; hence a task
submitted for one group can only be executed against a device of that
group, never one of a different group. -/
theorem swq_group_isolation (groups : List DeviceGroup) (procs : Nat)
    (evs : List QEv) (i t : Nat)
    (ht : ∀ j t', QEv.add j t' ∈ evs → t' = t → j = i) :
    (∀ j, t ∈ ((SWQ.init groups procs).run evs).taskQueues j → j = i) ∧
    (∀ wq ∈ ((SWQ.init groups procs).run evs).work_queues,
      ∃ j, j < groups.length ∧ wq.taskQueueId = j ∧
        ∃ d, wq.worker_data = [d] ∧ d ∈ (groups.getD j default).devices) ∧
    (∀ wq ∈ ((SWQ.init groups procs).run evs).work_queues,
      t ∈ ((SWQ.init groups procs).run evs).taskQueues wq.taskQueueId →
      ∃ d, wq.worker_data = [d] ∧ d ∈ (groups.getD i default).devices) := by
  have hq : ∀ j, t ∈ ((SWQ.init groups procs).run evs).taskQueues j → j = i := by
    intro j hmem
    rcases run_taskQueues_mem t j evs (SWQ.init groups procs) hmem with h0 | h0
    · simp [SWQ.init] at h0
    · exact ht j t h0 rfl
  have hw : ∀ wq ∈ ((SWQ.init groups procs).run evs).work_queues,
      ∃ j, j < groups.length ∧ wq.taskQueueId = j ∧
        ∃ d, wq.worker_data = [d] ∧ d ∈ (groups.getD j default).devices := by
    intro wq hmem
    rw [run_work_queues] at hmem
    rcases mem_mkWorkQueues hmem with ⟨j, hj, _, hid, d, hwd, hd⟩
    exact ⟨j, hj, by simpa using hid, d, hwd, hd⟩
  refine ⟨hq, hw, ?_⟩
  intro wq hmem htq
  rcases hw wq hmem with ⟨j, _, hid, d, hwd, hd⟩
  have : wq.taskQueueId = i := hq _ htq
  rw [this] at hid
  subst hid
  exact ⟨d, hwd, hd⟩

/-- Witness for C3: a task submitted for group 0 of a two-group fleet is
served by a worker bound to the single device of group 0. -/
theorem swq_group_isolation_witness :
    ∃ d, (WorkQueueRec.mk 4 0 [dSample]).worker_data = [d] ∧
      d ∈ (([gSample, gSample2] : List DeviceGroup).getD 0 default).devices :=
  (swq_group_isolation [gSample, gSample2] 4 [QEv.add 0 5] 0 5
      (by intro j t' hmem ht'
          simp only [List.mem_singleton] at hmem
          injection hmem with h1 h2)).2.2
    (WorkQueueRec.mk 4 0 [dSample]) (by decide) (by decide)

/-- All work queues built by `mkWorkQueues` have the same worker-pool
size `procs`. -/
theorem procs_mkWorkQueues {procs : Nat} {gs : List DeviceGroup} :
    ∀ {i : Nat} {wq : WorkQueueRec}, wq ∈ mkWorkQueues procs i gs → wq.procs = procs := by
  intro i wq h
  rcases mem_mkWorkQueues h with ⟨j, _, hp, _⟩
  exact hp

/-- The number of member work queues bound to a device equals the number
of occurrences of that device across the groups. -/
theorem countP_mkWorkQueues (procs : Nat) (d : Device) (gs : List DeviceGroup) :
    ∀ i, (mkWorkQueues procs i gs).countP (fun wq => wq.worker_data = [d]) =
      (gs.flatMap (·.devices)).count d := by
  induction gs with
  | nil => intro i; simp [mkWorkQueues]
  | cons g rest ih =>
    intro i
    rw [mkWorkQueues, List.countP_append, List.countP_map]
    have h1 : g.devices.countP
        ((fun wq => decide (wq.worker_data = [d])) ∘
          (fun device => WorkQueueRec.mk procs i [device])) = g.devices.count d := by
      rw [List.count_eq_countP]
      refine List.countP_congr ?_
      intro x _
      simp [Function.comp]
    rw [h1, ih (i + 1)]
    simp [List.count_append]

/-- For a uniform-`procs` work-queue list, the total worker count over the
queues bound to a device is `procs` per bound queue. -/
theorem sum_procs_filter (procs : Nat) (p : WorkQueueRec → Bool) :
    ∀ l : List WorkQueueRec, (∀ wq ∈ l, wq.procs = procs) →
      ((l.filter p).map (·.procs)).sum = procs * l.countP p := by
  intro l
  induction l with
  | nil => intro _; simp
  | cons wq rest ih =>
    intro hall
    rw [List.filter_cons, List.countP_cons]
    by_cases hp : p wq
    · simp only [hp, if_pos trivial]
      rw [List.map_cons, List.sum_cons,
        ih fun w hw => hall w (List.mem_cons_of_mem _ hw),
        hall wq (List.mem_cons_self _ _)]
      ring
    · simp only [hp]
      simp only [Bool.false_eq_true, if_false]
      rw [ih fun w hw => hall w (List.mem_cons_of_mem _ hw)]
      simp

/-- Counterexample to **C7** as stated: with the `procs_per_device = 4`
that `run_tests` passes (run_tests.py:834), four workers — not exactly
one — are bound to the single device of a one-device group, so commands
against one physical device are not serialized. -/
theorem one_worker_per_device_counterexample :
    workersBoundTo (SWQ.init [gSample] 4) dSample = 4 ∧ 4 ≠ 1 := by
  constructor
  · rfl
  · decide

/-- **C7 (amended).** For every device of every group handed to the
sharding work queue (devices not repeated across the fleet), exactly one
member `WorkQueue` is bound to that device, and that queue holds
`procs_per_device` workers (4 at the `run_tests` call site) — so up to
`procs_per_device` commands may run concurrently against one device, and
per-device serialization holds only when `procs_per_device = 1`. -/
theorem one_queue_per_device (groups : List DeviceGroup) (procs : Nat) (d : Device)
    (hnd : (groups.flatMap (·.devices)).Nodup)
    (hd : d ∈ groups.flatMap (·.devices)) :
    queuesBoundTo (SWQ.init groups procs) d = 1 ∧
    workersBoundTo (SWQ.init groups procs) d = procs := by
  have hcount : queuesBoundTo (SWQ.init groups procs) d = 1 := by
    rw [queuesBoundTo]
    show (mkWorkQueues procs 0 groups).countP (fun wq => wq.worker_data = [d]) = 1
    rw [countP_mkWorkQueues]
    exact List.count_eq_one_of_mem hnd hd
  refine ⟨hcount, ?_⟩
  rw [workersBoundTo]
  show ((((mkWorkQueues procs 0 groups).filter
    (fun wq => wq.worker_data = [d])).map (·.procs)).sum) = procs
  rw [sum_procs_filter procs _ _ fun wq hw => procs_mkWorkQueues hw]
  rw [show (mkWorkQueues procs 0 groups).countP (fun wq => wq.worker_data = [d]) =
    queuesBoundTo (SWQ.init groups procs) d from rfl, hcount]
  ring

/-- Witness for the amended C7 on a two-group fleet with distinct
devices. -/
theorem one_queue_per_device_witness :
    queuesBoundTo (SWQ.init [gSample, gSample2] 4) dSample2 = 1 ∧
    workersBoundTo (SWQ.init [gSample, gSample2] 4) dSample2 = 4 :=
  one_queue_per_device [gSample, gSample2] 4 dSample2 (by decide) (by decide)

/-- The first element of a non-empty list is a member (`devices[0]`). -/
theorem headI_mem_of_ne_nil {l : List Device} (h : l ≠ []) : l.headI ∈ l := by
  cases l with
  | nil => exact absurd rfl h
  | cons a t => exact List.mem_cons_self _ _

/-- **C6.** `match_configs_to_device_groups` keys exactly the requested
configurations, and maps a configuration to a group iff the group is in
the fleet and every device of the group can run the configuration
(equivalently, under the group-homogeneity invariant, iff the group's
first device satisfies `can_run_build_config`); groups failing the
predicate are never included. -/
theorem match_configs_characterization (fleet : Fleet)
    (configs : List BuildConfiguration)
    (hne : ∀ g ∈ fleet.unique_device_groups, g.devices ≠ [])
    (hhomog : ∀ g ∈ fleet.unique_device_groups, ∀ d ∈ g.devices,
      d.abis = g.devices.headI.abis ∧ d.version = g.devices.headI.version) :
    (match_configs_to_device_groups fleet configs).map Prod.fst = configs ∧
    (∀ c gs, (c, gs) ∈ match_configs_to_device_groups fleet configs →
      ∀ g, (g ∈ gs ↔ g ∈ fleet.unique_device_groups ∧
        ∀ d ∈ g.devices, d.can_run_build_config c = true)) := by
  constructor
  · simp [match_configs_to_device_groups, List.map_map, Function.comp_def]
  · intro c gs hmem g
    rcases List.mem_map.mp hmem with ⟨c', _, heq⟩
    rw [Prod.mk.injEq] at heq
    obtain ⟨rfl, hgs⟩ := heq
    subst hgs
    rw [List.mem_filter]
    constructor
    · rintro ⟨hg, hcan⟩
      refine ⟨hg, ?_⟩
      intro d hd
      rcases hhomog g hg d hd with ⟨ha, hv⟩
      rw [Device.can_run_build_config, ha, hv]
      exact hcan
    · rintro ⟨hg, hall⟩
      exact ⟨hg, hall _ (headI_mem_of_ne_nil (hne g hg))⟩

/-- Witness for C6 on a one-group fleet. -/
theorem match_configs_characterization_witness :
    (match_configs_to_device_groups fleetSample [cfgSample]).map Prod.fst = [cfgSample] :=
  (match_configs_characterization fleetSample [cfgSample]
    (by decide) (by decide)).1

/-- **C8.** With `--require-all-devices` set and some requested device
configuration missing, the driver fails right after device
matching: no device-clean task, no push task and no test run is ever
submitted. -/
theorem require_all_devices_aborts (clean_device : Bool) (fleet : Fleet)
    (test_groups : List (BuildConfiguration × List String))
    (hmissing : fleet.missing ≠ []) :
    (run_tests_tail true clean_device fleet test_groups).1.success = some false ∧
    (run_tests_tail true clean_device fleet test_groups).2 = [] := by
  have hlen : fleet.missing.length ≠ 0 := by
    intro h0
    exact hmissing (List.length_eq_zero.mp h0)
  have hv : verify_have_all_requested_devices fleet.missing = false := by
    simp [verify_have_all_requested_devices, hlen]
  constructor <;> rw [run_tests_tail, hv] <;> simp

/-- Witness for C8: a fleet with one missing configuration aborts with a
failed result and an empty submission list. -/
theorem require_all_devices_aborts_witness :
    (run_tests_tail true true fleetSample []).1.success = some false ∧
    (run_tests_tail true true fleetSample []).2 = [] :=
  require_all_devices_aborts true fleetSample [] (by decide)

/-! ### Graph search: visited-set monotonicity -/

/-- The loop over out-edges only grows the visited set, given that each
single-node search does. -/
theorem visitList_mono_of (g : Graph) (fuel : Nat)
    (hN : ∀ node visited path res v',
      visitNode g fuel node visited path = some (res, v') → visited ⊆ v') :
    ∀ outs visited path res v',
      visitList g fuel outs visited path = some (res, v') → visited ⊆ v' := by
  intro outs
  induction outs with
  | nil =>
    intro visited path res v' h
    simp only [visitList] at h
    injection h with h1
    injection h1 with h2 h3
    subst h3
    exact fun x hx => hx
  | cons o os ih =>
    intro visited path res v' h
    simp only [visitList] at h
    cases hn : visitNode g fuel o visited path with
    | none => rw [hn] at h; cases h
    | some pr =>
      obtain ⟨r0, v0⟩ := pr
      rw [hn] at h
      have hsub : visited ⊆ v0 := hN o visited path r0 v0 hn
      cases r0 with
      | some c =>
        simp only at h
        injection h with h1
        injection h1 with h2 h3
        subst h3
        exact hsub
      | none =>
        simp only at h
        exact List.Subset.trans hsub (ih v0 path res v' h)

/-- A single-node search only grows the visited set. -/
theorem visitNode_mono (g : Graph) :
    ∀ fuel node visited path res v',
      visitNode g fuel node visited path = some (res, v') → visited ⊆ v' := by
  intro fuel
  induction fuel with
  | zero =>
    intro node visited path res v' h
    simp only [visitNode] at h
    exact Option.noConfusion h
  | succ f ih =>
    intro node visited path res v' h
    simp only [visitNode] at h
    by_cases hp : node ∈ path
    · rw [if_pos hp] at h
      injection h with h1
      injection h1 with h2 h3
      subst h3
      exact fun x hx => hx
    · rw [if_neg hp] at h
      by_cases hv : node ∈ visited
      · rw [if_pos hv] at h
        injection h with h1
        injection h1 with h2 h3
        subst h3
        exact fun x hx => hx
      · rw [if_neg hv] at h
        have hstep := visitList_mono_of g f ih _ _ _ _ _ h
        exact fun x hx => hstep (List.mem_cons_of_mem _ hx)

/-- The out-edge loop only grows the visited set. -/
theorem visitList_mono (g : Graph) (fuel : Nat) :
    ∀ outs visited path res v',
      visitList g fuel outs visited path = some (res, v') → visited ⊆ v' :=
  visitList_mono_of g fuel (visitNode_mono g fuel)

/-! ### Graph search: the termination measure -/

/-- A larger visited set leaves no more unvisited nodes. -/
theorem ucount_mono (g : Graph) {v w : List Nat} (h : v ⊆ w) :
    ucount g w ≤ ucount g v := by
  rw [ucount, ucount, ← List.countP_eq_length_filter, ← List.countP_eq_length_filter]
  refine List.countP_mono_left ?_
  intro a _ ha
  simp only [decide_eq_true_eq] at ha ⊢
  exact fun hav => ha (h hav)

/-- Visiting a fresh node of the graph strictly shrinks the unvisited
count. -/
theorem ucount_insert_lt (g : Graph) {node : Nat} {visited : List Nat}
    (hmem : node ∈ g.nodes) (hnv : node ∉ visited) :
    ucount g (node :: visited) < ucount g visited := by
  have hd : node ∈ g.nodes.dedup := List.mem_dedup.mpr hmem
  rw [ucount, ucount]
  generalize g.nodes.dedup = l at hd
  induction l with
  | nil => cases hd
  | cons x t ih =>
    rw [List.filter_cons, List.filter_cons]
    by_cases hx : x = node
    · subst hx
      rw [if_neg (by simp), if_pos (by simpa using hnv)]
      have hle : (t.filter fun y => y ∉ x :: visited).length ≤
          (t.filter fun y => y ∉ visited).length := by
        rw [← List.countP_eq_length_filter, ← List.countP_eq_length_filter]
        refine List.countP_mono_left ?_
        intro a _ ha
        simp only [decide_eq_true_eq] at ha ⊢
        exact fun hav => ha (List.mem_cons_of_mem _ hav)
      simp only [List.length_cons]
      omega
    · have hmem' : node ∈ t := by
        rcases List.mem_cons.mp hd with h | h
        · exact absurd h.symm hx
        · exact h
      have ht := ih hmem'
      by_cases hxv : x ∈ visited
      · rw [if_neg (by simp [hxv]), if_neg (by simp [hxv])]
        exact ht
      · rw [if_pos (by simp [hxv, hx]), if_pos (by simp [hxv])]
        simpa using ht

/-- Every unvisited count is below the fuel `find_cycle` supplies. -/
theorem ucount_lt_fuel (g : Graph) (visited : List Nat) :
    ucount g visited < g.nodes.length + 1 := by
  rw [ucount]
  have h1 := List.length_filter_le (fun x => decide (x ∉ visited)) g.nodes.dedup
  have h2 := List.Sublist.length_le (List.dedup_sublist g.nodes)
  omega

/-! ### Graph search: fuel adequacy -/

/-- The out-edge loop never runs out of fuel when each single-node search
at the same fuel does not. -/
theorem visitList_adequate_of (g : Graph) (fuel : Nat)
    (hN : ∀ node visited path, node ∈ g.nodes → ucount g visited < fuel →
      visitNode g fuel node visited path ≠ none) :
    ∀ outs visited path, (∀ o ∈ outs, o ∈ g.nodes) → ucount g visited < fuel →
      visitList g fuel outs visited path ≠ none := by
  intro outs
  induction outs with
  | nil =>
    intro visited path _ _ h
    simp [visitList] at h
  | cons o os ih =>
    intro visited path ho hu h
    simp only [visitList] at h
    cases hn : visitNode g fuel o visited path with
    | none => exact hN o visited path (ho o (List.mem_cons_self _ _)) hu hn
    | some pr =>
      obtain ⟨r0, v0⟩ := pr
      rw [hn] at h
      cases r0 with
      | some c => exact Option.noConfusion h
      | none =>
        have hsub := visitNode_mono g fuel o visited path none v0 hn
        exact ih v0 path (fun o' ho' => ho o' (List.mem_cons_of_mem _ ho'))
          (Nat.lt_of_le_of_lt (ucount_mono g hsub) hu) h

/-- For an edge-closed graph, a single-node search with more fuel than
unvisited nodes never runs out of fuel. -/
theorem visitNode_adequate (g : Graph)
    (hcl : ∀ a ∈ g.nodes, ∀ b ∈ g.outs a, b ∈ g.nodes) :
    ∀ fuel node visited path, node ∈ g.nodes → ucount g visited < fuel →
      visitNode g fuel node visited path ≠ none := by
  intro fuel
  induction fuel with
  | zero => intro n v p _ hu; exact absurd hu (Nat.not_lt_zero _)
  | succ f ih =>
    intro node visited path hn hu h
    simp only [visitNode] at h
    by_cases hp : node ∈ path
    · rw [if_pos hp] at h; exact Option.noConfusion h
    · rw [if_neg hp] at h
      by_cases hv : node ∈ visited
      · rw [if_pos hv] at h; exact Option.noConfusion h
      · rw [if_neg hv] at h
        have hlt : ucount g (node :: visited) < f :=
          Nat.lt_of_lt_of_le (ucount_insert_lt g hn hv) (Nat.lt_succ_iff.mp hu)
        exact visitList_adequate_of g f ih (g.outs node) (node :: visited)
          (path ++ [node]) (fun o ho => hcl node hn o ho) hlt h

/-- For an edge-closed graph the outer loop of `find_cycle` never runs
out of fuel. -/
theorem findCycleFrom_adequate (g : Graph)
    (hcl : ∀ a ∈ g.nodes, ∀ b ∈ g.outs a, b ∈ g.nodes) (fuel : Nat) :
    ∀ ns visited, (∀ n ∈ ns, n ∈ g.nodes) → ucount g visited < fuel →
      findCycleFrom g fuel ns visited ≠ none := by
  intro ns
  induction ns with
  | nil => intro visited _ _ h; simp [findCycleFrom] at h
  | cons n rest ih =>
    intro visited hns hu h
    simp only [findCycleFrom] at h
    cases hn : visitNode g fuel n visited [] with
    | none =>
      exact visitNode_adequate g hcl fuel n visited []
        (hns n (List.mem_cons_self _ _)) hu hn
    | some pr =>
      obtain ⟨r0, v0⟩ := pr
      rw [hn] at h
      cases r0 with
      | some c => exact Option.noConfusion h
      | none =>
        exact ih v0 (fun m hm => hns m (List.mem_cons_of_mem _ hm))
          (Nat.lt_of_le_of_lt
            (ucount_mono g (visitNode_mono g fuel n visited [] none v0 hn)) hu) h

/-! ### Graph search: the no-cycle invariant -/

/-- Everything reachable from a closed node stays closed. -/
theorem closedOff_reach (g : Graph) {visited path : List Nat}
    (hc : ClosedOff g visited path) {x y : Nat}
    (hx : x ∈ visited) (hxp : x ∉ path)
    (hr : Relation.ReflTransGen g.Edge x y) : y ∈ visited ∧ y ∉ path := by
  induction hr with
  | refl => exact ⟨hx, hxp⟩
  | tail hab hbc ih =>
    rcases ih with ⟨hb, hbp⟩
    exact hc _ hb hbp _ hbc

/-- Invariant preservation for the out-edge loop, from invariant
preservation of each single-node search at the same fuel. -/
theorem visitList_inv_of (g : Graph) (fuel : Nat)
    (hN : ∀ node visited path v',
      visitNode g fuel node visited path = some (none, v') →
      path ⊆ visited → ClosedOff g visited path → NoCycOff g visited path →
      node ∈ v' ∧ node ∉ path ∧ path ⊆ v' ∧ ClosedOff g v' path ∧ NoCycOff g v' path) :
    ∀ outs visited path v',
      visitList g fuel outs visited path = some (none, v') →
      path ⊆ visited → ClosedOff g visited path → NoCycOff g visited path →
      path ⊆ v' ∧ ClosedOff g v' path ∧ NoCycOff g v' path ∧
        ∀ o ∈ outs, o ∈ v' ∧ o ∉ path := by
  intro outs
  induction outs with
  | nil =>
    intro visited path v' h hpv hc hnc
    simp only [visitList] at h
    injection h with h1
    injection h1 with h2 h3
    subst h3
    exact ⟨hpv, hc, hnc, by intro o ho; cases ho⟩
  | cons o os ih =>
    intro visited path v' h hpv hc hnc
    simp only [visitList] at h
    cases hn : visitNode g fuel o visited path with
    | none => rw [hn] at h; exact Option.noConfusion h
    | some pr =>
      obtain ⟨r0, v0⟩ := pr
      rw [hn] at h
      cases r0 with
      | some c =>
        simp only at h
        injection h with h1
        injection h1 with h2 h3
        exact Option.noConfusion h2
      | none =>
        simp only at h
        obtain ⟨ho1, ho2, hpv0, hc0, hnc0⟩ := hN o visited path v0 hn hpv hc hnc
        obtain ⟨hpv', hc', hnc', houts⟩ := ih v0 path v' h hpv0 hc0 hnc0
        refine ⟨hpv', hc', hnc', ?_⟩
        intro o' ho'
        rcases List.mem_cons.mp ho' with rfl | hmem
        · exact ⟨visitList_mono g fuel os v0 path none v' h ho1, ho2⟩
        · exact houts o' hmem

/-- Invariant preservation for a single-node search that reports no
cycle: afterwards the node is visited, off the path, and the visited
nodes off the path are successor-closed and lie on no directed cycle. -/
theorem visitNode_inv (g : Graph) :
    ∀ fuel node visited path v',
      visitNode g fuel node visited path = some (none, v') →
      path ⊆ visited → ClosedOff g visited path → NoCycOff g visited path →
      node ∈ v' ∧ node ∉ path ∧ path ⊆ v' ∧ ClosedOff g v' path ∧ NoCycOff g v' path := by
  intro fuel
  induction fuel with
  | zero =>
    intro node visited path v' h
    simp only [visitNode] at h
    exact absurd h (by simp)
  | succ f ih =>
    intro node visited path v' h hpv hc hnc
    simp only [visitNode] at h
    by_cases hp : node ∈ path
    · rw [if_pos hp] at h
      injection h with h1
      injection h1 with h2 h3
      exact Option.noConfusion h2
    · rw [if_neg hp] at h
      by_cases hv : node ∈ visited
      · rw [if_pos hv] at h
        injection h with h1
        injection h1 with h2 h3
        subst h3
        exact ⟨hv, hp, hpv, hc, hnc⟩
      · rw [if_neg hv] at h
        have hpv1 : path ++ [node] ⊆ node :: visited := by
          intro x hx
          rcases List.mem_append.mp hx with hx | hx
          · exact List.mem_cons_of_mem _ (hpv hx)
          · simp only [List.mem_singleton] at hx
            subst hx
            exact List.mem_cons_self _ _
        have hc1 : ClosedOff g (node :: visited) (path ++ [node]) := by
          intro x hxv hxp y hy
          have hxn : x ≠ node := by
            intro he
            subst he
            exact hxp (List.mem_append_right _ (List.mem_singleton_self _))
          have hxv' : x ∈ visited := by
            rcases List.mem_cons.mp hxv with he | hm
            · exact absurd he hxn
            · exact hm
          have hxp' : x ∉ path := fun hm => hxp (List.mem_append_left _ hm)
          obtain ⟨hy1, hy2⟩ := hc x hxv' hxp' y hy
          refine ⟨List.mem_cons_of_mem _ hy1, ?_⟩
          intro hym
          rcases List.mem_append.mp hym with hm | hm
          · exact hy2 hm
          · simp only [List.mem_singleton] at hm
            subst hm
            exact hv hy1
        have hnc1 : NoCycOff g (node :: visited) (path ++ [node]) := by
          intro x hxv hxp
          have hxn : x ≠ node := by
            intro he
            subst he
            exact hxp (List.mem_append_right _ (List.mem_singleton_self _))
          have hxv' : x ∈ visited := by
            rcases List.mem_cons.mp hxv with he | hm
            · exact absurd he hxn
            · exact hm
          have hxp' : x ∉ path := fun hm => hxp (List.mem_append_left _ hm)
          exact hnc x hxv' hxp'
        obtain ⟨hpv', hc', hnc', houts⟩ :=
          visitList_inv_of g f ih (g.outs node) (node :: visited)
            (path ++ [node]) v' h hpv1 hc1 hnc1
        have hnodev : node ∈ v' :=
          hpv' (List.mem_append_right _ (List.mem_singleton_self _))
        have hpathv : path ⊆ v' := fun x hx => hpv' (List.mem_append_left _ hx)
        refine ⟨hnodev, hp, hpathv, ?_, ?_⟩
        · intro x hxv hxp y hy
          by_cases hxn : x = node
          · subst hxn
            obtain ⟨hy1, hy2⟩ := houts y hy
            exact ⟨hy1, fun hm => hy2 (List.mem_append_left _ hm)⟩
          · have hxp1 : x ∉ path ++ [node] := by
              intro hm
              rcases List.mem_append.mp hm with hm | hm
              · exact hxp hm
              · simp only [List.mem_singleton] at hm
                exact hxn hm
            obtain ⟨hy1, hy2⟩ := hc' x hxv hxp1 y hy
            exact ⟨hy1, fun hm => hy2 (List.mem_append_left _ hm)⟩
        · intro x hxv hxp
          by_cases hxn : x = node
          · subst hxn
            intro hcyc
            rcases (Relation.TransGen.head'_iff).mp hcyc with ⟨y, hxy, hyx⟩
            obtain ⟨hy1, hy2⟩ := houts y hxy
            obtain ⟨hx1, hx2⟩ := closedOff_reach g hc' hy1 hy2 hyx
            exact hx2 (List.mem_append_right _ (List.mem_singleton_self _))
          · have hxp1 : x ∉ path ++ [node] := by
              intro hm
              rcases List.mem_append.mp hm with hm | hm
              · exact hxp hm
              · simp only [List.mem_singleton] at hm
                exact hxn hm
            exact hnc' x hxv hxp1

/-- If no search from any start node reports a cycle, no start node lies
on a directed cycle. -/
theorem findCycleFrom_none (g : Graph) (fuel : Nat) :
    ∀ ns visited, findCycleFrom g fuel ns visited = some none →
      ClosedOff g visited [] → NoCycOff g visited [] →
      ∀ n ∈ ns, ¬ Relation.TransGen g.Edge n n := by
  intro ns
  induction ns with
  | nil => intro visited _ _ _ n hn; cases hn
  | cons m rest ih =>
    intro visited h hc hnc n hn
    simp only [findCycleFrom] at h
    cases hm : visitNode g fuel m visited [] with
    | none => rw [hm] at h; exact Option.noConfusion h
    | some pr =>
      obtain ⟨r0, v0⟩ := pr
      rw [hm] at h
      cases r0 with
      | some c =>
        simp only at h
        injection h with h1
        exact Option.noConfusion h1
      | none =>
        simp only at h
        obtain ⟨hm1, _, _, hc0, hnc0⟩ :=
          visitNode_inv g fuel m visited [] v0 hm (by intro x hx; cases hx) hc hnc
        rcases List.mem_cons.mp hn with rfl | hmem
        · exact hnc0 n hm1 (by intro hx; cases hx)
        · exact ih v0 h hc0 hnc0 n hmem

/-! ### Graph search: soundness of a reported cycle -/

/-- `dropWhile (≠ node)` on a list containing `node` yields the suffix
from the first occurrence of `node`. -/
theorem dropWhile_ne_eq_suffix (node : Nat) :
    ∀ path : List Nat, node ∈ path →
      ∃ mid, path.dropWhile (· != node) = node :: mid ∧
        (node :: mid) <:+ path := by
  intro path
  induction path with
  | nil => intro h; cases h
  | cons x t ih =>
    intro hmem
    by_cases hx : x = node
    · subst hx
      refine ⟨t, ?_, List.suffix_refl _⟩
      rw [List.dropWhile_cons]
      simp
    · have hmem' : node ∈ t := by
        rcases List.mem_cons.mp hmem with h | h
        · exact absurd h.symm hx
        · exact h
      obtain ⟨mid, hdw, hsuf⟩ := ih hmem'
      refine ⟨mid, ?_, hsuf.trans (List.suffix_cons x t)⟩
      rw [List.dropWhile_cons]
      have : (x != node) = true := by
        simp [bne_iff_ne]
        exact hx
      rw [if_pos this, hdw]

/-- A non-empty closed edge-chain gives a transitive-closure loop. -/
theorem chain_append_transGen (g : Graph) :
    ∀ (mid : List Nat) (a b : Nat), List.Chain g.Edge a (mid ++ [b]) →
      Relation.TransGen g.Edge a b := by
  intro mid
  induction mid with
  | nil =>
    intro a b h
    rw [List.nil_append] at h
    rcases List.chain_cons.mp h with ⟨hab, _⟩
    exact Relation.TransGen.single hab
  | cons x t ih =>
    intro a b h
    rw [List.cons_append] at h
    rcases List.chain_cons.mp h with ⟨hax, hrest⟩
    exact Relation.TransGen.head hax (ih x b hrest)

/-- Soundness of a cycle reported by the out-edge loop, from soundness of
each single-node search at the same fuel. -/
theorem visitList_cycle_sound_of (g : Graph) (fuel : Nat)
    (hN : ∀ node visited path c v',
      visitNode g fuel node visited path = some (some c, v') →
      path.Nodup → (∀ x ∈ path, x ∈ g.nodes) → node ∈ g.nodes →
      List.Chain' g.Edge (path ++ [node]) → CycleShape g c) :
    ∀ outs visited path c v',
      visitList g fuel outs visited path = some (some c, v') →
      path.Nodup → (∀ x ∈ path, x ∈ g.nodes) →
      (∀ o ∈ outs, o ∈ g.nodes ∧ List.Chain' g.Edge (path ++ [o])) →
      CycleShape g c := by
  intro outs
  induction outs with
  | nil =>
    intro visited path c v' h _ _ _
    simp only [visitList] at h
    injection h with h1
    injection h1 with h2 h3
    exact Option.noConfusion h2
  | cons o os ih =>
    intro visited path c v' h hnd hmem houts
    simp only [visitList] at h
    cases hn : visitNode g fuel o visited path with
    | none => rw [hn] at h; exact Option.noConfusion h
    | some pr =>
      obtain ⟨r0, v0⟩ := pr
      rw [hn] at h
      cases r0 with
      | some c0 =>
        simp only at h
        injection h with h1
        injection h1 with h2 h3
        have hc0 : c0 = c := Option.some.inj h2
        subst hc0
        exact hN o visited path c0 v0 hn hnd hmem
          (houts o (List.mem_cons_self _ _)).1 (houts o (List.mem_cons_self _ _)).2
      | none =>
        simp only at h
        exact ih v0 path c v' h hnd hmem
          (fun o' ho' => houts o' (List.mem_cons_of_mem _ ho'))

/-- A cycle reported by a single-node search is a simple closed edge-path
through a graph node, beginning and ending with the repeated node. -/
theorem visitNode_cycle_sound (g : Graph)
    (hcl : ∀ a ∈ g.nodes, ∀ b ∈ g.outs a, b ∈ g.nodes) :
    ∀ fuel node visited path c v',
      visitNode g fuel node visited path = some (some c, v') →
      path.Nodup → (∀ x ∈ path, x ∈ g.nodes) → node ∈ g.nodes →
      List.Chain' g.Edge (path ++ [node]) → CycleShape g c := by
  intro fuel
  induction fuel with
  | zero =>
    intro node visited path c v' h
    simp only [visitNode] at h
    exact absurd h (by simp)
  | succ f ih =>
    intro node visited path c v' h hnd hmem hnode hchain
    simp only [visitNode] at h
    by_cases hp : node ∈ path
    · rw [if_pos hp] at h
      injection h with h1
      injection h1 with h2 h3
      have hc : path.dropWhile (· != node) ++ [node] = c := Option.some.inj h2
      obtain ⟨mid, hdw, hsuf⟩ := dropWhile_ne_eq_suffix node path hp
      rw [hdw] at hc
      have hnmid : ((node :: mid) ++ [node]).Nodup ∨ True := Or.inr trivial
      have hnodup : (node :: mid).Nodup := hnd.sublist hsuf.sublist
      obtain ⟨hna, hmidnd⟩ := List.nodup_cons.mp hnodup
      obtain ⟨u, hu⟩ := hsuf
      have hsuf2 : ((node :: mid) ++ [node]) <:+ (path ++ [node]) :=
        ⟨u, by rw [← List.append_assoc, hu]⟩
      have hch2 : List.Chain' g.Edge ((node :: mid) ++ [node]) := hchain.suffix hsuf2
      rw [List.cons_append] at hch2
      refine ⟨node, mid, ?_, hna, hmidnd, hch2, hnode⟩
      rw [← hc, List.cons_append]
    · rw [if_neg hp] at h
      by_cases hv : node ∈ visited
      · rw [if_pos hv] at h
        injection h with h1
        injection h1 with h2 h3
        exact Option.noConfusion h2
      · rw [if_neg hv] at h
        have hnd1 : (path ++ [node]).Nodup := by
          rw [List.nodup_append]
          refine ⟨hnd, List.nodup_singleton _, ?_⟩
          intro a ha hb
          simp only [List.mem_singleton] at hb
          subst hb
          exact hp ha
        have hmem1 : ∀ x ∈ path ++ [node], x ∈ g.nodes := by
          intro x hx
          rcases List.mem_append.mp hx with hx | hx
          · exact hmem x hx
          · simp only [List.mem_singleton] at hx
            subst hx
            exact hnode
        refine visitList_cycle_sound_of g f ih (g.outs node) (node :: visited)
          (path ++ [node]) c v' h hnd1 hmem1 ?_
        intro o ho
        refine ⟨hcl node hnode o ho, ?_⟩
        rw [List.chain'_append]
        refine ⟨hchain, List.chain'_singleton _, ?_⟩
        intro x hx y hy
        rw [List.getLast?_concat] at hx
        simp only [Option.mem_def, Option.some.injEq] at hx
        simp only [List.head?_cons, Option.mem_def, Option.some.injEq] at hy
        subst hx
        subst hy
        exact ho

/-- Soundness of a cycle reported by the outer loop of `find_cycle`. -/
theorem findCycleFrom_cycle_sound (g : Graph)
    (hcl : ∀ a ∈ g.nodes, ∀ b ∈ g.outs a, b ∈ g.nodes) (fuel : Nat) :
    ∀ ns visited c, findCycleFrom g fuel ns visited = some (some c) →
      (∀ n ∈ ns, n ∈ g.nodes) → CycleShape g c := by
  intro ns
  induction ns with
  | nil =>
    intro visited c h _
    simp only [findCycleFrom] at h
    injection h with h1
    exact Option.noConfusion h1
  | cons n rest ih =>
    intro visited c h hns
    simp only [findCycleFrom] at h
    cases hn : visitNode g fuel n visited [] with
    | none => rw [hn] at h; exact Option.noConfusion h
    | some pr =>
      obtain ⟨r0, v0⟩ := pr
      rw [hn] at h
      cases r0 with
      | some c0 =>
        simp only at h
        injection h with h1
        have hc0 : c0 = c := Option.some.inj h1
        subst hc0
        exact visitNode_cycle_sound g hcl fuel n visited [] c0 v0 hn
          List.nodup_nil (by intro x hx; cases hx)
          (hns n (List.mem_cons_self _ _)) (by simp)
      | none =>
        simp only at h
        exact ih v0 c h (fun m hm => hns m (List.mem_cons_of_mem _ hm))

/-- **C9.** `Graph.find_cycle` searches the nodes in sorted-name order
and returns `none` iff the graph (closed under its out-edges) is acyclic;
a returned list is a simple closed edge-path that begins and ends with
the repeated node — the sub-path of the search path from the node's first
occurrence to its closing repeat. -/
theorem find_cycle_correct (ns : List Nat) (outEdges : Nat → List Nat)
    (hclosed : ∀ a ∈ ns, ∀ b ∈ outEdges a, b ∈ ns) :
    (Graph.ofNodes ns outEdges).nodes = List.mergeSort ns (· ≤ ·) ∧
    ((Graph.ofNodes ns outEdges).find_cycle = none ↔
      ¬ (Graph.ofNodes ns outEdges).Cyclic) ∧
    (∀ c, (Graph.ofNodes ns outEdges).find_cycle = some c →
      CycleShape (Graph.ofNodes ns outEdges) c) := by
  have hcl : ∀ a ∈ (Graph.ofNodes ns outEdges).nodes,
      ∀ b ∈ (Graph.ofNodes ns outEdges).outs a,
        b ∈ (Graph.ofNodes ns outEdges).nodes := by
    intro a ha b hb
    have ha' : a ∈ ns := (List.mergeSort_perm ns _).mem_iff.mp ha
    have hb' : b ∈ outEdges a := (List.mergeSort_perm (outEdges a) _).mem_iff.mp hb
    exact (List.mergeSort_perm ns _).mem_iff.mpr (hclosed a ha' b hb')
  have hsound : ∀ c, (Graph.ofNodes ns outEdges).find_cycle = some c →
      CycleShape (Graph.ofNodes ns outEdges) c := by
    intro c h
    rw [Graph.find_cycle] at h
    cases hf : findCycleFrom (Graph.ofNodes ns outEdges)
        ((Graph.ofNodes ns outEdges).nodes.length + 1)
        (Graph.ofNodes ns outEdges).nodes [] with
    | none => rw [hf] at h; exact Option.noConfusion h
    | some r =>
      rw [hf] at h
      subst h
      exact findCycleFrom_cycle_sound (Graph.ofNodes ns outEdges) hcl _
        (Graph.ofNodes ns outEdges).nodes [] c hf (fun n hn => hn)
  refine ⟨rfl, ⟨?_, ?_⟩, hsound⟩
  · intro h hcyc
    rcases hcyc with ⟨a, ha, htrans⟩
    rw [Graph.find_cycle] at h
    cases hf : findCycleFrom (Graph.ofNodes ns outEdges)
        ((Graph.ofNodes ns outEdges).nodes.length + 1)
        (Graph.ofNodes ns outEdges).nodes [] with
    | none =>
      exact findCycleFrom_adequate (Graph.ofNodes ns outEdges) hcl _
        (Graph.ofNodes ns outEdges).nodes [] (fun n hn => hn)
        (ucount_lt_fuel _ _) hf
    | some r =>
      rw [hf] at h
      subst h
      exact findCycleFrom_none (Graph.ofNodes ns outEdges) _
        (Graph.ofNodes ns outEdges).nodes [] hf
        (by intro x hx; cases hx) (by intro x hx; cases hx) a ha htrans
  · intro h
    cases hy : (Graph.ofNodes ns outEdges).find_cycle with
    | none => rfl
    | some c =>
      exfalso
      rcases hsound c hy with ⟨a, mid, _, _, _, hchain, hanodes⟩
      exact h ⟨a, hanodes, chain_append_transGen _ mid a a hchain⟩

/-- Witness for C9: the empty graph is reported acyclic, and is
acyclic. -/
theorem find_cycle_correct_witness :
    ¬ (Graph.ofNodes [] (fun _ => [])).Cyclic :=
  (find_cycle_correct [] (fun _ => []) (by decide)).2.1.mp (by
    have hn : (Graph.ofNodes [] (fun _ => [])).nodes = [] := by
      simp [Graph.ofNodes]
    simp only [Graph.find_cycle, hn]
    rfl)

end Ndk
